import Mathlib

/-!
Verification development for the apimesh Node.js swagger-generation pipeline.
The definitions below are shallow embeddings of the Python source in
`nodejs_pipeline/identify_api_functions.py`, `nodejs_pipeline/run_swagger_generation.py`
and `nodejs_pipeline/generate_file_information.py`.  Machine strings are Lean
`String`/`List Char`; Python `None` is `Option.none`; dictionaries are
association lists with first-match lookup.
-/

/-- Embedding of `API_METHODS` from `identify_api_functions.py`. -/
def apiMethods : List String :=
  ["get", "post", "put", "delete", "patch", "options", "head", "all"]

/-- Embedding of `ROUTE_OBJECT_KEYWORDS`. -/
def routeObjectKeywords : List String :=
  ["app", "router", "route", "api", "controller", "server"]

/-- Embedding of `ROUTE_OBJECT_SUFFIXES`. -/
def routeObjectSuffixes : List String :=
  ["router", "routes", "route", "app", "server", "controller", "api"]

/-- ASCII `str.lower()` (all strings in this development are ASCII). -/
def strLower (s : String) : String :=
  ⟨s.toList.map Char.toLower⟩

/-- ASCII `str.upper()`. -/
def strUpper (s : String) : String :=
  ⟨s.toList.map Char.toUpper⟩

/-- Python `str.strip()`: drop whitespace from both ends. -/
def strStrip (s : String) : String :=
  ⟨((s.toList.dropWhile Char.isWhitespace).reverse.dropWhile Char.isWhitespace).reverse⟩

/-- Python `str.startswith`. -/
def strStartsWith (s pat : String) : Bool :=
  pat.toList.isPrefixOf s.toList

/-- Python `str.endswith`. -/
def strEndsWith (s pat : String) : Bool :=
  pat.toList.isSuffixOf s.toList

/-- Embedding of `_looks_like_route_object`: lower-case the name, then test exact
keyword membership, route-suffix match, or an app/api leading match. -/
def looksLikeRouteObject (name : String) : Bool :=
  let low := strLower name
  routeObjectKeywords.contains low
    || routeObjectSuffixes.any (fun suf => strEndsWith low suf)
    || strStartsWith low "app" || strStartsWith low "api"

/-- EndpointRecord as produced by the detector tiers (`type` is always
"function" and `file_path` is the scanned file, so both are omitted). -/
structure Endpoint where
  method : String
  route : Option String
  startLine : Nat
  endLine : Nat
deriving DecidableEq, Repr

/-- Identity key used for deduplication: `(endpoint["method"], endpoint.get("route"), endpoint.get("start_line"))`. -/
def epKey (e : Endpoint) : String × Option String × Nat :=
  (e.method, e.route, e.startLine)

/-- Embedding of `_clean_literal`: strip one layer of matching single or double
quotes from a string literal's source text. -/
def cleanLiteral (s : List Char) : List Char :=
  if s.length ≥ 2 ∧ s.head? = s.getLast? ∧ (s.head? = some '\'' ∨ s.head? = some '"') then
    (s.drop 1).dropLast
  else s

/-- Interpolation test used by `_clean_template_literal`: does the text contain
the two-character sequence that opens a template substitution? -/
def hasInterpolation : List Char → Bool
  | '$' :: '\x7b' :: _ => true
  | _ :: rest => hasInterpolation rest
  | [] => false

/-- Embedding of `_clean_template_literal`: `None` when the template contains an
interpolation, otherwise the text with surrounding backquotes stripped. -/
def cleanTemplateLiteral (s : List Char) : Option (List Char) :=
  if hasInterpolation s then none
  else if s.head? = some '\x60' ∧ s.getLast? = some '\x60' ∧ s.length ≥ 1 then
    some ((s.drop 1).dropLast)
  else some s

/-- Argument node of a TypeScript call expression as seen by
`_extract_endpoint_from_ts_call`: a `string` node, a `template_string` node, or
anything else (carrying the literal source text for the first two). -/
inductive TsArg where
  | str (text : List Char)
  | template (text : List Char)
  | otherArg
deriving DecidableEq, Repr

/-- Scan of the call's `arguments` named children: the first string or template
child decides the route and stops the scan (mirrors the `break`s in the source). -/
def firstRouteArg : List TsArg → Option String
  | [] => none
  | .str t :: _ => some ⟨cleanLiteral t⟩
  | .template t :: _ => (cleanTemplateLiteral t).map (fun l => ⟨l⟩)
  | .otherArg :: rest => firstRouteArg rest

/-- Shape of a tree-sitter `call_expression` node, restricted to the fields read
by `_extract_endpoint_from_ts_call`: the `function` child (present? a
`member_expression`?), the member's `property` child (its node type and source
text), the member's `object` child's source text (`none` when the child is
absent), the `arguments` child's named children, and the node's row span. -/
structure TsCall where
  hasFuncChild : Bool
  funcIsMember : Bool
  propNodeType : Option String
  propText : String
  objText : Option String
  argsChildren : Option (List TsArg)
  startRow : Nat
  endRow : Nat
deriving Repr

/-- Embedding of `_extract_endpoint_from_ts_call` (the structural call-pattern
tier for typed dialects). -/
def extractEndpointFromTsCall (node : TsCall) : Option Endpoint :=
  if ¬ (node.hasFuncChild ∧ node.funcIsMember) then none
  else if ¬ (node.propNodeType = some "property_identifier" ∨ node.propNodeType = some "identifier") then none
  else
    let methodName := strLower (strStrip node.propText)
    if ¬ apiMethods.contains methodName then none
    else
      let routeObjectName := node.objText.getD ""
      if ¬ looksLikeRouteObject routeObjectName then none
      else
        let route := match node.argsChildren with
          | none => none
          | some args => firstRouteArg args
        some ⟨strUpper methodName, route, node.startRow + 1, node.endRow + 1⟩

/-- Esprima AST nodes, restricted to the shapes `_find_api_endpoints_js`
inspects: identifiers, literals (string or not), member expressions (recording
whether the property is an `Identifier` and its name), call expressions with
location, and a generic node with children (covers `Program` bodies and any
other container the recursive walk descends into). -/
inductive JsAst where
  | ident (name : String)
  | lit (isStr : Bool) (value : String)
  | member (obj : JsAst) (propIsIdent : Bool) (propName : String)
  | call (callee : JsAst) (args : List JsAst) (startLine endLine : Nat)
  | container (body : List JsAst)
deriving Repr

/-- Route of the first call argument per `_find_api_endpoints_js`: a string
`Literal` yields its value, anything else yields `None`. -/
def jsRouteOfArgs : List JsAst → Option String
  | .lit true v :: _ => some v
  | _ => none

mutual
/-- Embedding of the `extract_call_expression` walk in `_find_api_endpoints_js`:
emit a record at every call whose callee is a member access with an `Identifier`
property naming an HTTP verb (note: the object of the member access is never
inspected), then recurse into all child nodes. -/
def jsExtract : JsAst → List Endpoint
  | .ident _ => []
  | .lit _ _ => []
  | .member obj _ _ => jsExtract obj
  | .call callee args s e =>
      (match callee with
        | .member _ true propName =>
            if apiMethods.contains (strLower propName) && !args.isEmpty then
              [⟨strUpper (strLower propName), jsRouteOfArgs args, s, e⟩]
            else []
        | _ => []) ++ jsExtract callee ++ jsExtractList args
  | .container body => jsExtractList body

/-- Walk of a list of child nodes, in order. -/
def jsExtractList : List JsAst → List Endpoint
  | [] => []
  | n :: rest => jsExtract n ++ jsExtractList rest
end

/-- Dedup accumulator of `_find_api_endpoints_ts`: append a candidate only when
its identity key is unseen, recording the key (`seen.add(key)`). -/
def dedupInto : List Endpoint → List Endpoint × List (String × Option String × Nat) →
    List Endpoint × List (String × Option String × Nat)
  | [], acc => acc
  | e :: rest, (eps, seen) =>
      if seen.contains (epKey e) then dedupInto rest (eps, seen)
      else dedupInto rest (eps ++ [e], seen ++ [epKey e])

/-- Embedding of the success path of `_find_api_endpoints_ts`: union the NestJS
decorator tier, then the structural call tier, under the identity key; when the
result is still empty, union in the regex decorator fallback.  The three tier
outputs are passed as the lists their extractors produce. -/
def findApiEndpointsTs (nestEps tsCallEps nestRegexEps : List Endpoint) : List Endpoint :=
  let acc := dedupInto nestEps ([], [])
  let acc := dedupInto tsCallEps acc
  if acc.1 = [] then (dedupInto nestRegexEps acc).1 else acc.1

/-- Element of a FileInventory list (`functions` or `function_calls` entry):
name plus 1-based start/end line. -/
structure SymElem where
  name : String
  startLine : Nat
  endLine : Nat
deriving DecidableEq, Repr

/-- Names filtered out of `existing_function_names` in `get_dependencies`. -/
def httpVerbExclusions : List String :=
  ["get", "post", "put", "delete", "patch"]

/-- Embedding of the `existing_function_names` comprehension in
`get_dependencies`. -/
def existingFunctionNames (functions : List SymElem) : List String :=
  (functions.filter (fun f => ¬ httpVerbExclusions.contains f.name)).map (fun f => f.name)

/-- Stable insertion of an element into a list sorted by start line (an element
is placed before the first strictly larger key, matching Python's stable sort). -/
def insertByStart (x : SymElem) : List SymElem → List SymElem
  | [] => [x]
  | y :: ys => if x.startLine ≤ y.startLine then x :: y :: ys else y :: insertByStart x ys

/-- Stable sort by start line, embedding `sorted(candidates, key=lambda func: func.get('start_line', 0))`. -/
def sortByStart : List SymElem → List SymElem
  | [] => []
  | x :: xs => insertByStart x (sortByStart xs)

/-- Guard of the first branch of the candidate loop in `get_dependencies`:
`start and end and start <= call_line <= end` (Python truthiness on line
numbers is `≠ 0`). -/
def containsGuard (c : SymElem) (callLine : Nat) : Prop :=
  c.startLine ≠ 0 ∧ c.endLine ≠ 0 ∧ c.startLine ≤ callLine ∧ callLine ≤ c.endLine

instance (c : SymElem) (callLine : Nat) : Decidable (containsGuard c callLine) := by
  unfold containsGuard; infer_instance

/-- Guard of the second branch: `start and start <= call_line`. -/
def leGuard (c : SymElem) (callLine : Nat) : Prop :=
  c.startLine ≠ 0 ∧ c.startLine ≤ callLine

instance (c : SymElem) (callLine : Nat) : Decidable (leGuard c callLine) := by
  unfold leGuard; infer_instance

/-- Embedding of the `for candidate in candidates` loop in `get_dependencies`:
break with the first span-containing candidate, otherwise keep overwriting
`definition` with each candidate that starts at or before the call line. -/
def selectLoop (callLine : Nat) : List SymElem → Option SymElem → Option SymElem
  | [], acc => acc
  | c :: rest, acc =>
      if containsGuard c callLine then some c
      else if leGuard c callLine then selectLoop callLine rest (some c)
      else selectLoop callLine rest acc

/-- Definition lookup of `get_dependencies` for one call: gather the same-named
declarations (`function_lookup`), sort them by start line, run the candidate
loop, and fall back to the first sorted candidate (`candidates[0]`). -/
def selectDefinition (functions : List SymElem) (name : String) (callLine : Nat) :
    Option SymElem :=
  let candidates := functions.filter (fun f => f.name = name)
  if candidates.isEmpty then none
  else
    let sortedC := sortByStart candidates
    match selectLoop callLine sortedC none with
    | some d => some d
    | none => sortedC.head?

/-- Dependency entry emitted by step 1 of `get_dependencies` (the constant
`file_path` field is omitted). -/
structure DependencyInfo where
  name : String
  callStartLine : Nat
  callEndLine : Nat
  functionStartLine : Nat
  functionEndLine : Nat
deriving DecidableEq, Repr

/-- Embedding of step 1 of `get_dependencies`: for every function-call capture
whose name is a declared non-HTTP-verb function name and whose span lies in the
endpoint range, emit a dependency entry carrying the chosen definition's span
(or the call's own span when no definition is found). -/
def getInFileDependencies (functions functionCalls : List SymElem)
    (startLine endLine : Nat) : List DependencyInfo :=
  let existing := existingFunctionNames functions
  (functionCalls.filter
      (fun item => existing.contains item.name
        ∧ startLine ≤ item.startLine ∧ item.endLine ≤ endLine)).map
    (fun item =>
      match selectDefinition functions item.name item.startLine with
      | some d => ⟨item.name, item.startLine, item.endLine, d.startLine, d.endLine⟩
      | none => ⟨item.name, item.startLine, item.endLine, item.startLine, item.endLine⟩)

/-- Per-character expansion of the two sequential separator replacements in
`_metadata_file_name` (`.replace("/", "_q_").replace("\\", "_q_")`; both
patterns are single characters and the replacement contains neither, so the
composite equals this character-wise expansion). -/
def sanitizeChar (c : Char) : List Char :=
  if c = '/' ∨ c = '\x5c' then ['_', 'q', '_'] else [c]

/-- Separator sanitization of `_metadata_file_name`. -/
def sanitizePath (cs : List Char) : List Char :=
  cs.flatMap sanitizeChar

/-- Root part of `os.path.splitext` on a separator-free string: cut at the last
dot, provided some character before that dot is not itself a dot (otherwise the
name is returned whole, as for dotfiles). -/
def splitextRoot (cs : List Char) : List Char :=
  if (cs.reverse.takeWhile (fun c => c ≠ '.')).length = cs.reverse.length then cs
  else if ((cs.reverse.drop
      ((cs.reverse.takeWhile (fun c => c ≠ '.')).length + 1)).reverse).any
      (fun c => c ≠ '.') then
    (cs.reverse.drop ((cs.reverse.takeWhile (fun c => c ≠ '.')).length + 1)).reverse
  else cs

/-- Embedding of `_metadata_file_name`: sanitize separators, strip the
extension, append `.json`. -/
def metadataFileName (filePath : List Char) : List Char :=
  splitextRoot (sanitizePath filePath) ++ ".json".toList

/-- Decoder for the sentinel encoding: rewrite each `_q_` occurrence back to a
separator.  Used to show the sanitization step is reversible on inputs that
contain neither an underscore nor a backslash. -/
def decodeSentinel : List Char → List Char
  | [] => []
  | c :: rest =>
      if c = '_' ∧ rest.take 2 = ['q', '_'] then '/' :: decodeSentinel (rest.drop 2)
      else c :: decodeSentinel rest
termination_by cs => cs.length
decreasing_by
  · simp only [List.length_cons]
    have := List.length_drop 2 rest
    omega
  · simp

/-- Embedding of `_combine_paths` step 1: Python `prefix or "/"` (both `None`
and the empty string fall back to `"/"`). -/
def orSlash : Option (List Char) → List Char
  | none => ['/']
  | some p => if p.isEmpty then ['/'] else p

/-- Embedding of `path if path is not None else "/"` in `_combine_paths`. -/
def orSlashKeepEmpty : Option (List Char) → List Char
  | none => ['/']
  | some p => p

/-- Leading-slash guarantee of `_combine_paths`. -/
def ensureLeadingSlash (cs : List Char) : List Char :=
  if cs.head? = some '/' then cs else '/' :: cs

/-- Python `str.rstrip("/")`: drop trailing slashes. -/
def rstripSlash (cs : List Char) : List Char :=
  (cs.reverse.dropWhile (fun c => c = '/')).reverse

/-- Embedding of `re.sub(r"//+", "/", s)`: collapse every run of slashes to a
single slash (runs of length one are unchanged by the regex, runs of length two
or more are replaced by one slash). -/
def squeezeSlashes : List Char → List Char
  | [] => []
  | c :: rest =>
      if c = '/' then '/' :: squeezeSlashes (rest.dropWhile (fun d => d = '/'))
      else c :: squeezeSlashes rest
termination_by cs => cs.length
decreasing_by
  · simp only [List.length_cons]
    have := (List.dropWhile_sublist (l := rest) (p := fun d => d = '/')).length_le
    omega
  · simp

/-- Embedding of `_combine_paths`. -/
def combinePaths (ctrlPfx handlerPath : Option (List Char)) : List Char :=
  let pfxPart := ensureLeadingSlash (orSlash ctrlPfx)
  let pathPart := ensureLeadingSlash (orSlashKeepEmpty handlerPath)
  let combined := squeezeSlashes (rstripSlash pfxPart ++ pathPart)
  if combined.head? = some '/' then combined else '/' :: combined

/-- Start of a parameter name in the pattern `:([A-Za-z_][\w-]*)` of
`_normalize_route` (ASCII reading of the character class). -/
def isIdentStart (c : Char) : Bool :=
  c.isAlpha || c = '_'

/-- Continuation character `[\w-]` of the same pattern. -/
def isWordChar (c : Char) : Bool :=
  c.isAlphanum || c = '_' || c = '-'

/-- Embedding of `_normalize_route` for a non-null route: rewrite every
occurrence of `:([A-Za-z_][\w-]*)` to `{...}`, scanning left to right and
resuming after each match like `re.sub`. -/
def normalizeRouteChars : List Char → List Char
  | [] => []
  | c :: rest =>
      if c = ':' ∧ rest.head?.elim false isIdentStart then
        match rest with
        | d :: rest2 =>
            '\x7b' :: d :: rest2.takeWhile isWordChar
              ++ '\x7d' :: normalizeRouteChars (rest2.dropWhile isWordChar)
        | [] => [c]
      else c :: normalizeRouteChars rest
termination_by cs => cs.length
decreasing_by
  · simp only [List.length_cons]
    have := (List.dropWhile_sublist (l := rest2) (p := isWordChar)).length_le
    simp_all
    omega
  · simp

/-- String-level `_normalize_route` (the `if not route` guard is the `Option`
layer at call sites; an empty string is returned unchanged, which
`normalizeRouteChars` already does). -/
def normalizeRoute (s : String) : String :=
  ⟨normalizeRouteChars s.toList⟩

/-- Colon-style parameter detector: does the string contain a colon immediately
followed by a character that can start a parameter name?  This is exactly the
set of strings on which the `_normalize_route` pattern can match. -/
def hasColonParamChars : List Char → Bool
  | c :: d :: rest => (c = ':' && isIdentStart d) || hasColonParamChars (d :: rest)
  | _ => false

/-- String-level colon-parameter detector. -/
def hasColonParam (s : String) : Bool :=
  hasColonParamChars s.toList

/-- Python-dict model: association list with distinct keys in insertion order.
Lookup takes the first match. -/
def dictGet {α : Type} (d : List (String × α)) (k : String) : Option α :=
  (d.find? (fun e => e.1 = k)).map (fun e => e.2)

/-- Assignment `d[k] = v`: update the existing entry in place, or append a new
entry at the end (Python insertion order). -/
def dictSet {α : Type} : List (String × α) → String → α → List (String × α)
  | [], k, v => [(k, v)]
  | e :: rest, k, v => if e.1 = k then (k, v) :: rest else e :: dictSet rest k v

/-- Deletion `d.pop(k, None)` / `del d[k]`: remove the entry for `k`. -/
def dictRemove {α : Type} (d : List (String × α)) (k : String) : List (String × α) :=
  d.filter (fun e => e.1 ≠ k)

/-- Key list of a dict (`list(d.keys())`). -/
def dictKeys {α : Type} (d : List (String × α)) : List String :=
  d.map (fun e => e.1)

/-- Inner dict `d.update(src)`: assign every entry of `src` into `d` in order. -/
def dictUpdate {α : Type} (d src : List (String × α)) : List (String × α) :=
  src.foldl (fun acc e => dictSet acc e.1 e.2) d

/-- Paths mapping of a swagger document: path key to method dict to operation
payload (the payload's JSON structure is abstracted as a type parameter). -/
abbrev PathsMap (α : Type) : Type := List (String × List (String × α))

/-- Merge of one source path entry into the target, embedding the inner loop of
`_merge_paths`: normalize the key, `setdefault` an empty method dict, then
assign each method's payload. -/
def mergeOnePath {α : Type} (target : PathsMap α) (pathKey : String)
    (methods : List (String × α)) : PathsMap α :=
  let normalizedPath := normalizeRoute pathKey
  let target : PathsMap α :=
    match dictGet target normalizedPath with
    | some _ => target
    | none => target ++ [(normalizedPath, [])]
  methods.foldl
    (fun t me =>
      dictSet t normalizedPath (dictSet ((dictGet t normalizedPath).getD []) me.1 me.2))
    target

/-- Embedding of `_merge_paths` restricted to the `paths` mappings (the
`target.setdefault("paths", {})` is the identity because the accumulated
document always carries a `paths` key). -/
def mergePaths {α : Type} (target source : PathsMap α) : PathsMap α :=
  source.foldl (fun t e => mergeOnePath t e.1 e.2) target

/-- Re-keying step of `_post_process_swagger` for one original key: when
normalization changes the key, pop the original entry and either insert it
under the normalized key or update the already-present normalized entry. -/
def rekeyStep {α : Type} (paths : PathsMap α) (original : String) : PathsMap α :=
  if normalizeRoute original = original then paths
  else
    match dictGet paths original with
    | none => paths
    | some existing =>
        match dictGet (dictRemove paths original) (normalizeRoute original) with
        | none => dictRemove paths original ++ [(normalizeRoute original, existing)]
        | some present =>
            dictSet (dictRemove paths original) (normalizeRoute original)
              (dictUpdate present existing)

/-- Value-level repair applied at a fixed `(path, method)` slot: replaces the
operation payload when the slot is present and leaves the key structure alone
(models the POST `/{name}` / GET `/{name}` / DELETE `/{name}/{id}` response
repairs of `_post_process_swagger`, whose edits stay inside one payload). -/
def applyOpFix {α : Type} (paths : PathsMap α) (pathKey method : String)
    (fix : α → α) : PathsMap α :=
  match dictGet paths pathKey with
  | none => paths
  | some inner =>
      match dictGet inner method with
      | none => paths
      | some payload => dictSet paths pathKey (dictSet inner method (fix payload))

/-- Embedding of `_post_process_swagger` on the `paths` mapping: drop the bare
wildcard keys, re-key every lingering colon-style path (iterating over a
snapshot of the keys, as `list(paths.keys())` does), then apply the three
value-level response repairs. -/
def postProcessPaths {α : Type} (paths : PathsMap α) (fixPost fixGet fixDelete : α → α) :
    PathsMap α :=
  let p := dictRemove (dictRemove paths "/*") "*"
  let p := (dictKeys p).foldl rekeyStep p
  let p := applyOpFix p "/\x7bname\x7d" "post" fixPost
  let p := applyOpFix p "/\x7bname\x7d" "get" fixGet
  applyOpFix p "/\x7bname\x7d/\x7bid\x7d" "delete" fixDelete

/-- Probe extension list of `get_module_origin` (`search_exts`), in source
order: direct extensions first, then the `/index` variants. -/
def searchExts : List String :=
  [".ts", ".tsx", ".cts", ".mts", ".js", ".mjs", ".cjs", ".d.ts",
   "/index.ts", "/index.tsx", "/index.cts", "/index.mts",
   "/index.js", "/index.mjs", "/index.cjs"]

/-- Two-component `os.path.join`: the right part wins when absolute, otherwise
the parts are joined with a single separator. -/
def joinPath (a b : String) : String :=
  if strStartsWith b "/" then b
  else if strEndsWith a "/" ∨ a.toList.isEmpty then a ++ b
  else a ++ "/" ++ b

/-- Probe loop of `get_module_origin`: return the absolutized first candidate
`path + ext` that exists, else `None`.  The filesystem is an oracle `fsExists`
and `abspath` abstracts `os.path.abspath` (identity on absolute normalized
paths). -/
def probeLoop (fsExists : String → Bool) (abspath : String → String) (path : String) :
    List String → Option String
  | [] => none
  | ext :: rest =>
      let candidate := path ++ ext
      if fsExists candidate then some (abspath candidate)
      else probeLoop fsExists abspath path rest

/-- Sentinel returned for non-relative specifiers with no local package
directory. -/
def externalSentinel : String := "<node_builtin_or_external>"

/-- Embedding of `get_module_origin`.  `fsExists` models `os.path.exists`,
`normpath` models `os.path.normpath` and `abspath` models `os.path.abspath`
(pure path-string functions of the host).  Return value: `none` is Python
`None`; the sentinel is an ordinary string, distinct from `None`. -/
def getModuleOrigin (fsExists : String → Bool) (normpath abspath : String → String)
    (moduleName baseDirectory : String) : Option String :=
  if strStartsWith moduleName "." then
    let path := normpath (joinPath baseDirectory moduleName)
    probeLoop fsExists abspath path searchExts
  else
    let nodeModulePath := joinPath (joinPath baseDirectory "node_modules") moduleName
    if fsExists nodeModulePath then some (abspath nodeModulePath)
    else some externalSentinel

/-- Point (row, column) span of a tree-sitter node, together with its source
text; only the rows are read by `get_elements`. -/
structure TsNode where
  startRow : Nat
  endRow : Nat
  text : String
deriving DecidableEq, Repr

/-- Capture produced by the structural query of `get_elements` for a named
declaration: the name identifier node plus the enclosing declaration node (the
query also captures the whole declaration, e.g. `@function`, but the code reads
only the name capture). -/
structure NamedCapture where
  nameNode : TsNode
  declNode : TsNode
deriving DecidableEq, Repr

/-- Inventory entry built by `get_elements` (fields `type` is the category
string; `line`, `start_line`, `end_line` as in the source). -/
structure InventoryEntry where
  name : String
  line : Nat
  startLine : Nat
  endLine : Nat
deriving DecidableEq, Repr

/-- Entry construction shared by the class/function/variable/call branches of
`get_elements`: every field is taken from the captured name node. -/
def entryFromCapture (c : NamedCapture) : InventoryEntry :=
  { name := c.nameNode.text
    line := c.nameNode.startRow + 1
    startLine := c.nameNode.startRow + 1
    endLine := c.nameNode.endRow + 1 }

/-- Embedding of the symbol-collection part of `get_elements`: the five entry
lists, each mapped from its capture list. -/
structure InventoryElements where
  classes : List InventoryEntry
  functions : List InventoryEntry
  vars : List InventoryEntry
  functionCalls : List InventoryEntry
deriving Repr

/-- Embedding of the capture-to-entry mapping of `get_elements` (plain calls and
method calls both land in `function_calls`, in that order). -/
def getElements (classCaps funcCaps varCaps calledFuncCaps methodCaps : List NamedCapture) :
    InventoryElements :=
  { classes := classCaps.map entryFromCapture
    functions := funcCaps.map entryFromCapture
    vars := varCaps.map entryFromCapture
    functionCalls := calledFuncCaps.map entryFromCapture ++ methodCaps.map entryFromCapture }

/-- Claim-level span containment: the call line lies inside the declaration's
inclusive line range. -/
def spanContains (c : SymElem) (line : Nat) : Prop :=
  c.startLine ≤ line ∧ line ≤ c.endLine

instance (c : SymElem) (line : Nat) : Decidable (spanContains c line) := by
  unfold spanContains; infer_instance

/-- Detector for a run of two or more consecutive slashes. -/
def hasDoubleSlash : List Char → Bool
  | c :: d :: rest => (c = '/' && d = '/') || hasDoubleSlash (d :: rest)
  | _ => false

/-- Operation lookup in a paths mapping: `paths.get(p, {}).get(m)`. -/
def lookupOp {α : Type} (d : PathsMap α) (p m : String) : Option α :=
  match dictGet d p with
  | none => none
  | some inner => dictGet inner m

/-- Claim C1, counterexample: on a plain-script file the structural
call-pattern tier (`_find_api_endpoints_js`) emits a record for
`foo.get('/x', ...)` even though the object name `foo` fails the route-object
heuristic, so the heuristic does not gate this tier on every source file. -/
theorem c1_js_tier_ignores_heuristic :
    jsExtract (JsAst.call (JsAst.member (JsAst.ident "foo") true "get")
        [JsAst.lit true "/x"] 3 3)
      = [⟨"GET", some "/x", 3, 3⟩]
    ∧ looksLikeRouteObject "foo" = false := by
  constructor
  · simp only [jsExtract, jsExtractList, jsRouteOfArgs]
    decide
  · decide

/-- Claim C1, amended: on typed-dialect files the structural call-pattern tier
(`_extract_endpoint_from_ts_call`) only emits a record when the member-access
object name satisfies the route-object heuristic; the plain-script structural
tier applies no such check. -/
theorem c1_ts_tier_requires_route_object (node : TsCall) (ep : Endpoint)
    (h : extractEndpointFromTsCall node = some ep) :
    looksLikeRouteObject (node.objText.getD "") = true := by
  by_cases hobj : looksLikeRouteObject (node.objText.getD "") = true
  · exact hobj
  · exfalso
    unfold extractEndpointFromTsCall at h
    repeat split at h
    all_goals simp_all

/-- Witness for the amended C1 theorem at a concrete `app.get()` call node. -/
theorem c1_ts_tier_requires_route_object_witness :
    looksLikeRouteObject
        ((⟨true, true, some "property_identifier", "get", some "app",
            some [], 0, 0⟩ : TsCall).objText.getD "") = true :=
  c1_ts_tier_requires_route_object
    ⟨true, true, some "property_identifier", "get", some "app", some [], 0, 0⟩
    ⟨"GET", none, 1, 1⟩ (by decide)

/-- Claim C4, counterexample: the plain-script detector has no deduplication,
so two registrations of the same method and route on the same line yield two
records with the same identity key. -/
theorem c4_js_detector_duplicates :
    ¬ ((jsExtract (JsAst.container
        [JsAst.call (JsAst.member (JsAst.ident "app") true "get")
            [JsAst.lit true "/a"] 1 1,
         JsAst.call (JsAst.member (JsAst.ident "router") true "get")
            [JsAst.lit true "/a"] 1 1])).map epKey).Nodup := by
  simp only [jsExtract, jsExtractList, jsRouteOfArgs]
  decide

/-- Invariant of the dedup accumulator: starting from a list whose keys are
exactly the seen set and are pairwise distinct, folding in more candidates
keeps the keys distinct and keeps the seen set equal to the key list. -/
theorem dedupInto_spec (l : List Endpoint) (eps : List Endpoint)
    (seen : List (String × Option String × Nat))
    (hs : seen = eps.map epKey) (h : (eps.map epKey).Nodup) :
    ((dedupInto l (eps, seen)).1.map epKey).Nodup
    ∧ (dedupInto l (eps, seen)).2 = (dedupInto l (eps, seen)).1.map epKey := by
  subst hs
  induction l generalizing eps with
  | nil => exact ⟨h, rfl⟩
  | cons e rest ih =>
    simp only [dedupInto]
    by_cases hc : (eps.map epKey).contains (epKey e) = true
    · rw [if_pos hc]
      exact ih eps h
    · rw [if_neg hc]
      have hnotmem : epKey e ∉ eps.map epKey := by simpa using hc
      have hnd : ((eps ++ [e]).map epKey).Nodup := by
        simp only [List.map_append, List.map_cons, List.map_nil]
        exact List.Nodup.append h (List.nodup_singleton _) (by simpa using hnotmem)
      have hrw : eps.map epKey ++ [epKey e] = (eps ++ [e]).map epKey := by simp
      rw [hrw]
      exact ih (eps ++ [e]) hnd

/-- Claim C4, amended: the typed-dialect detector (`_find_api_endpoints_ts`)
returns at most one record per identity key `(method, route, start_line)` for
any tier outputs; the plain-script detector does not deduplicate. -/
theorem c4_ts_detector_dedup (nestEps tsCallEps nestRegexEps : List Endpoint) :
    ((findApiEndpointsTs nestEps tsCallEps nestRegexEps).map epKey).Nodup := by
  obtain ⟨h1n, h1s⟩ := dedupInto_spec nestEps [] [] rfl (by simp)
  obtain ⟨h2n, h2s⟩ := dedupInto_spec tsCallEps (dedupInto nestEps ([], [])).1
      (dedupInto nestEps ([], [])).2 h1s h1n
  show (List.map epKey
      (if (dedupInto tsCallEps (dedupInto nestEps ([], []))).1 = []
        then (dedupInto nestRegexEps (dedupInto tsCallEps (dedupInto nestEps ([], [])))).1
        else (dedupInto tsCallEps (dedupInto nestEps ([], []))).1)).Nodup
  split
  · obtain ⟨h3n, h3s⟩ := dedupInto_spec nestRegexEps
        (dedupInto tsCallEps (dedupInto nestEps ([], []))).1
        (dedupInto tsCallEps (dedupInto nestEps ([], []))).2 h2s h2n
    exact h3n
  · exact h2n

/-- Claim C2, counterexample: `get_dependencies` excludes only the five verbs
`get/post/put/delete/patch`, so a declared function named `options` called
inside the endpoint range does produce an in-file dependency entry, although
`options` is one of the detector's HTTP-verb method names. -/
theorem c2_options_dependency_emitted :
    getInFileDependencies [⟨"options", 2, 2⟩] [⟨"options", 5, 5⟩] 1 10
      = [⟨"options", 5, 5, 2, 2⟩]
    ∧ apiMethods.contains "options" = true := by
  decide

/-- Claim C2, amended: step 1 of `get_dependencies` never emits an in-file
dependency entry whose name is one of `get`, `post`, `put`, `delete`, `patch`
(the verbs `options`, `head`, `all` are not excluded). -/
theorem c2_step1_excludes_crud_verbs (functions functionCalls : List SymElem)
    (startLine endLine : Nat) (d : DependencyInfo)
    (hd : d ∈ getInFileDependencies functions functionCalls startLine endLine) :
    httpVerbExclusions.contains d.name = false := by
  unfold getInFileDependencies at hd
  obtain ⟨item, hitem, hmk⟩ := List.mem_map.mp hd
  obtain ⟨hmem, hcond⟩ := List.mem_filter.mp hitem
  have hname : d.name = item.name := by
    cases hsel : selectDefinition functions item.name item.startLine with
    | none => rw [hsel] at hmk; cases hmk; rfl
    | some dd => rw [hsel] at hmk; cases hmk; rfl
  have hin : (existingFunctionNames functions).contains item.name = true := by
    simp only [decide_eq_true_eq] at hcond
    exact hcond.1
  have hmemx : item.name ∈ existingFunctionNames functions := by
    simpa using hin
  unfold existingFunctionNames at hmemx
  obtain ⟨f, hf, hfname⟩ := List.mem_map.mp hmemx
  obtain ⟨hfmem, hfcond⟩ := List.mem_filter.mp hf
  rw [hname, ← hfname]
  simp only [decide_eq_true_eq] at hfcond
  simpa using hfcond

/-- Witness for the amended C2 theorem: a dependency on an ordinary helper
function is emitted and its name is not an excluded verb. -/
theorem c2_step1_excludes_crud_verbs_witness :
    httpVerbExclusions.contains (⟨"helper", 2, 2, 1, 3⟩ : DependencyInfo).name = false :=
  c2_step1_excludes_crud_verbs [⟨"helper", 1, 3⟩] [⟨"helper", 2, 2⟩] 1 10
    ⟨"helper", 2, 2, 1, 3⟩ (by decide)

/-- Claim C10: every inventory entry built by `get_elements` records the span
of the captured name identifier node, so start and end line coincide (and
equal the name's line, not the last line of the declaration body), whenever
the captured name tokens span a single row — which identifier tokens do. -/
theorem c10_entry_spans_are_name_lines
    (classCaps funcCaps varCaps calledFuncCaps methodCaps : List NamedCapture)
    (hsingle : ∀ c ∈ classCaps ++ funcCaps ++ varCaps ++ calledFuncCaps ++ methodCaps,
      c.nameNode.endRow = c.nameNode.startRow)
    (e : InventoryEntry)
    (he : e ∈ (getElements classCaps funcCaps varCaps calledFuncCaps methodCaps).classes
        ++ (getElements classCaps funcCaps varCaps calledFuncCaps methodCaps).functions
        ++ (getElements classCaps funcCaps varCaps calledFuncCaps methodCaps).vars
        ++ (getElements classCaps funcCaps varCaps calledFuncCaps methodCaps).functionCalls) :
    e.startLine = e.endLine
    ∧ ∃ c ∈ classCaps ++ funcCaps ++ varCaps ++ calledFuncCaps ++ methodCaps,
        e = entryFromCapture c ∧ e.endLine = c.nameNode.startRow + 1 := by
  simp only [getElements, List.mem_append, List.mem_map] at he
  have hcap : ∃ c ∈ classCaps ++ funcCaps ++ varCaps ++ calledFuncCaps ++ methodCaps,
      entryFromCapture c = e := by
    rcases he with (((⟨c, hc, hce⟩ | ⟨c, hc, hce⟩) | ⟨c, hc, hce⟩) | (⟨c, hc, hce⟩ | ⟨c, hc, hce⟩)) <;>
      exact ⟨c, by simp [hc], hce⟩
  obtain ⟨c, hc, hce⟩ := hcap
  have hrow := hsingle c hc
  subst hce
  refine ⟨?_, c, hc, rfl, ?_⟩
  · simp [entryFromCapture, hrow]
  · simp [entryFromCapture, hrow]

/-- Witness for C10: a function whose body ends on row 20 still yields an
entry whose end line is the line of the name identifier on row 4. -/
theorem c10_entry_spans_are_name_lines_witness :
    (⟨"handler", 5, 5, 5⟩ : InventoryEntry).startLine
        = (⟨"handler", 5, 5, 5⟩ : InventoryEntry).endLine
    ∧ ∃ c ∈ ([] : List NamedCapture) ++ [⟨⟨4, 4, "handler"⟩, ⟨4, 20, "handler body"⟩⟩]
        ++ [] ++ [] ++ [],
        (⟨"handler", 5, 5, 5⟩ : InventoryEntry) = entryFromCapture c
        ∧ (⟨"handler", 5, 5, 5⟩ : InventoryEntry).endLine = c.nameNode.startRow + 1 :=
  c10_entry_spans_are_name_lines [] [⟨⟨4, 4, "handler"⟩, ⟨4, 20, "handler body"⟩⟩] [] [] []
    (by decide) ⟨"handler", 5, 5, 5⟩ (by decide)

/-- Probe loop of the Module Origin Resolver expressed as a first-match search
over the candidate list. -/
theorem probeLoop_eq_find (fsExists : String → Bool) (abspath : String → String)
    (path : String) (exts : List String) :
    probeLoop fsExists abspath path exts
      = ((exts.map (fun ext => path ++ ext)).find? fsExists).map abspath := by
  induction exts with
  | nil => rfl
  | cons e rest ih =>
    by_cases h : fsExists (path ++ e)
    · simp [probeLoop, h, List.find?]
    · simp only [probeLoop] at *
      simp [h, List.find?, ih]

/-- Claim C6: for a relative specifier the origin is the first candidate path
that exists, probing each source extension appended to the joined path and
then the `/index` variants in the fixed order of `search_exts`, and `None`
when no candidate exists; for a non-relative specifier the origin is the
`node_modules` path beneath the importing directory when it exists and the
external/builtin sentinel (distinct from `None`) otherwise. -/
theorem c6_module_origin_resolution (fsExists : String → Bool)
    (normpath abspath : String → String) (moduleName baseDirectory : String) :
    (strStartsWith moduleName "." = true →
      getModuleOrigin fsExists normpath abspath moduleName baseDirectory
        = ((searchExts.map
              (fun ext => normpath (joinPath baseDirectory moduleName) ++ ext)).find?
            fsExists).map abspath)
    ∧ (strStartsWith moduleName "." = false →
      getModuleOrigin fsExists normpath abspath moduleName baseDirectory
        = (if fsExists (joinPath (joinPath baseDirectory "node_modules") moduleName)
            then some (abspath (joinPath (joinPath baseDirectory "node_modules") moduleName))
            else some externalSentinel))
    ∧ (some externalSentinel ≠ (none : Option String)) := by
  refine ⟨fun h => ?_, fun h => ?_, by simp⟩
  · simp [getModuleOrigin, h, probeLoop_eq_find]
  · simp [getModuleOrigin, h]

/-- Witness for C6: `./helpers` next to a sibling `helpers.ts` resolves to that
file, and `lodash` with no local package directory resolves to the sentinel. -/
theorem c6_module_origin_resolution_witness :
    getModuleOrigin (fun s => s == "/proj/helpers.ts") (fun _ => "/proj/helpers") id
        "./helpers" "/proj" = some "/proj/helpers.ts"
    ∧ getModuleOrigin (fun _ => false) id id "lodash" "/proj" = some externalSentinel := by
  constructor
  · rw [(c6_module_origin_resolution (fun s => s == "/proj/helpers.ts")
        (fun _ => "/proj/helpers") id "./helpers" "/proj").1 (by decide)]
    decide
  · rw [(c6_module_origin_resolution (fun _ => false) id id "lodash" "/proj").2.1 (by decide)]
    decide

/-- Claim C3, counterexample: the cache-filename encoding is not reversible —
two distinct source paths that differ only in their extension collide, because
the extension is discarded before `.json` is appended. -/
theorem c3_cache_name_collision :
    metadataFileName "a/b.ts".toList = metadataFileName "a/b.js".toList
    ∧ "a/b.ts".toList ≠ "a/b.js".toList := by
  decide

/-- Roundtrip of the sentinel encoding on inputs free of underscores and
backslashes: decoding the sanitized path restores the original. -/
theorem decodeSentinel_sanitizePath (cs : List Char)
    (h : ∀ c ∈ cs, c ≠ '_' ∧ c ≠ '\x5c') :
    decodeSentinel (sanitizePath cs) = cs := by
  induction cs with
  | nil => simp [sanitizePath, decodeSentinel]
  | cons c rest ih =>
    have hc := h c (List.mem_cons_self c rest)
    have hrest : ∀ x ∈ rest, x ≠ '_' ∧ x ≠ '\x5c' :=
      fun x hx => h x (List.mem_cons_of_mem c hx)
    by_cases hcs : c = '/'
    · subst hcs
      have hsan : sanitizePath ('/' :: rest) = '_' :: 'q' :: '_' :: sanitizePath rest := by
        simp [sanitizePath, sanitizeChar]
      rw [hsan]
      simp only [decodeSentinel]
      simp [ih hrest]
    · have hsan : sanitizePath (c :: rest) = c :: sanitizePath rest := by
        simp [sanitizePath, sanitizeChar, hcs, hc.2]
      rw [hsan]
      simp only [decodeSentinel]
      rw [if_neg (by simp [hc.1])]
      rw [ih hrest]

/-- Sanitization leaves a string without separators unchanged. -/
theorem sanitizePath_of_no_sep (cs : List Char)
    (h : ∀ c ∈ cs, c ≠ '/' ∧ c ≠ '\x5c') :
    sanitizePath cs = cs := by
  induction cs with
  | nil => rfl
  | cons c rest ih =>
    have hc := h c (List.mem_cons_self c rest)
    have : sanitizeChar c = [c] := by simp [sanitizeChar, hc.1, hc.2]
    simp [sanitizePath, this]
    exact ih fun x hx => h x (List.mem_cons_of_mem c hx)

/-- Sanitization never produces a dot that was not in the input. -/
theorem sanitizePath_no_dot (cs : List Char)
    (h : ∀ c ∈ cs, c ≠ '.') :
    ∀ c ∈ sanitizePath cs, c ≠ '.' := by
  intro c hcmem
  simp only [sanitizePath, List.mem_flatMap] at hcmem
  obtain ⟨a, ha, hc⟩ := hcmem
  unfold sanitizeChar at hc
  by_cases hs : a = '/' ∨ a = '\x5c'
  · rw [if_pos hs] at hc
    fin_cases hc <;> decide
  · rw [if_neg hs] at hc
    rw [List.mem_singleton] at hc
    subst hc
    exact h c ha

/-- Sanitization of a nonempty string is nonempty. -/
theorem sanitizePath_ne_nil (cs : List Char) (h : cs ≠ []) :
    sanitizePath cs ≠ [] := by
  cases cs with
  | nil => exact absurd rfl h
  | cons c rest =>
    simp only [sanitizePath, List.flatMap_cons]
    intro hnil
    have : sanitizeChar c = [] := by
      cases hx : sanitizeChar c with
      | nil => rfl
      | cons y ys => rw [hx] at hnil; simp at hnil
    by_cases hs : c = '/' ∨ c = '\x5c' <;> simp [sanitizeChar, hs] at this

/-- Prefix of an append is taken whole when every element of the left part
satisfies the predicate and the boundary element fails it. -/
theorem takeWhile_append_sat {p : Char → Bool} (xs : List Char) (y : Char) (ys : List Char)
    (hx : ∀ x ∈ xs, p x = true) (hy : p y = false) :
    (xs ++ y :: ys).takeWhile p = xs := by
  induction xs with
  | nil => simp [List.takeWhile_cons, hy]
  | cons a as ih =>
    simp [List.takeWhile_cons, hx a (List.mem_cons_self a as),
      ih fun x hxm => hx x (List.mem_cons_of_mem a hxm)]

/-- Dropping past the boundary of an append-with-cons leaves the tail. -/
theorem drop_append_cons (xs : List Char) (y : Char) (ys : List Char) :
    (xs ++ y :: ys).drop (xs.length + 1) = ys := by
  have h1 : xs ++ y :: ys = (xs ++ [y]) ++ ys := by simp
  have h2 : xs.length + 1 = (xs ++ [y]).length := by simp
  rw [h1, h2, List.drop_left]

/-- Extension stripping on a sanitized name of the form `stem.ext` where the
stem is nonempty and dot-free and the extension is dot-free returns the stem. -/
theorem splitextRoot_append_ext (A B : List Char) (hA : A ≠ [])
    (hAdot : ∀ c ∈ A, c ≠ '.') (hBdot : ∀ c ∈ B, c ≠ '.') :
    splitextRoot (A ++ '.' :: B) = A := by
  unfold splitextRoot
  have hrev : (A ++ '.' :: B).reverse = B.reverse ++ '.' :: A.reverse := by simp
  rw [hrev]

  have htake : (B.reverse ++ '.' :: A.reverse).takeWhile (fun c => c ≠ '.') = B.reverse := by
    refine takeWhile_append_sat _ _ _ (fun x hxm => ?_) (by simp)
    simp only [List.mem_reverse] at hxm
    simp [hBdot x hxm]
  rw [htake]
  have hlen : B.reverse.length ≠ (B.reverse ++ '.' :: A.reverse).length := by
    simp
  rw [if_neg hlen]
  rw [drop_append_cons, List.reverse_reverse]
  rw [if_pos ?hany]
  case hany =>
    cases A with
    | nil => exact absurd rfl hA
    | cons a as =>
      simp only [List.any_cons, Bool.or_eq_true]
      left
      simp [hAdot a (List.mem_cons_self a as)]

/-- Claim C3, amended: the encoding is injective on paths that share the same
extension and whose stems are nonempty, dot-free, underscore-free and
backslash-free; in general it is not reversible (distinct paths differing only
in their extension collide, as the counterexample shows). -/
theorem c3_cache_name_injective_on_stems (s1 s2 e : List Char)
    (hs1 : s1 ≠ []) (hs2 : s2 ≠ [])
    (h1 : ∀ c ∈ s1, c ≠ '_' ∧ c ≠ '\x5c' ∧ c ≠ '.')
    (h2 : ∀ c ∈ s2, c ≠ '_' ∧ c ≠ '\x5c' ∧ c ≠ '.')
    (he : ∀ c ∈ e, c ≠ '.' ∧ c ≠ '/' ∧ c ≠ '\x5c')
    (hne : s1 ≠ s2) :
    metadataFileName (s1 ++ '.' :: e) ≠ metadataFileName (s2 ++ '.' :: e) := by
  intro heq
  apply hne
  have key : ∀ s : List Char, s ≠ [] → (∀ c ∈ s, c ≠ '_' ∧ c ≠ '\x5c' ∧ c ≠ '.') →
      metadataFileName (s ++ '.' :: e) = sanitizePath s ++ ".json".toList := by
    intro s hsnil hs
    unfold metadataFileName
    have hsan : sanitizePath (s ++ '.' :: e) = sanitizePath s ++ '.' :: e := by
      have h1s : sanitizePath ('.' :: e) = '.' :: e := by
        refine sanitizePath_of_no_sep _ (fun c hcm => ?_)
        rcases List.mem_cons.mp hcm with hc | hc
        · subst hc; exact ⟨by decide, by decide⟩
        · exact ⟨(he c hc).2.1, (he c hc).2.2⟩
      calc sanitizePath (s ++ '.' :: e)
          = sanitizePath s ++ sanitizePath ('.' :: e) := by
            simp [sanitizePath]
        _ = sanitizePath s ++ '.' :: e := by rw [h1s]
    rw [hsan]
    rw [splitextRoot_append_ext (sanitizePath s) e
      (sanitizePath_ne_nil s hsnil)
      (sanitizePath_no_dot s fun c hcm => (hs c hcm).2.2)
      (fun c hcm => (he c hcm).1)]
  rw [key s1 hs1 h1, key s2 hs2 h2] at heq
  have hsan_eq : sanitizePath s1 = sanitizePath s2 := by
    exact List.append_cancel_right heq
  have r1 := decodeSentinel_sanitizePath s1 (fun c hcm => ⟨(h1 c hcm).1, (h1 c hcm).2.1⟩)
  have r2 := decodeSentinel_sanitizePath s2 (fun c hcm => ⟨(h2 c hcm).1, (h2 c hcm).2.1⟩)
  rw [← r1, ← r2, hsan_eq]

/-- Witness for the amended C3 theorem at two one-letter stems with a shared
extension. -/
theorem c3_cache_name_injective_on_stems_witness :
    metadataFileName (['a'] ++ '.' :: ['t', 's'])
      ≠ metadataFileName (['b'] ++ '.' :: ['t', 's']) :=
  c3_cache_name_injective_on_stems ['a'] ['b'] ['t', 's']
    (by decide) (by decide) (by decide) (by decide) (by decide) (by decide)

/-- Collapsing slash runs preserves the first character. -/
theorem squeezeSlashes_head (l : List Char) :
    (squeezeSlashes l).head? = l.head? := by
  cases l with
  | nil => simp [squeezeSlashes]
  | cons c rest =>
    by_cases hc : c = '/'
    · subst hc; simp [squeezeSlashes]
    · simp [squeezeSlashes, hc]

/-- Head of a `dropWhile` result always falsifies the predicate. -/
theorem head_dropWhile_false {α : Type} (p : α → Bool) (l : List α) (x : α)
    (h : (l.dropWhile p).head? = some x) : p x = false := by
  induction l with
  | nil => simp [List.dropWhile] at h
  | cons a as ih =>
    by_cases hp : p a
    · rw [List.dropWhile_cons_of_pos hp] at h
      exact ih h
    · rw [List.dropWhile_cons_of_neg hp] at h
      simp only [List.head?_cons, Option.some.injEq] at h
      subst h
      simpa using hp

/-- The output of the slash-run collapse contains no two consecutive slashes. -/
theorem hasDoubleSlash_squeezeSlashes (l : List Char) :
    hasDoubleSlash (squeezeSlashes l) = false := by
  induction l using squeezeSlashes.induct with
  | case1 => simp [squeezeSlashes, hasDoubleSlash]
  | case2 rest ih =>
    rw [show squeezeSlashes ('/' :: rest)
        = '/' :: squeezeSlashes (rest.dropWhile (fun d => d = '/')) by
      simp [squeezeSlashes]]
    cases ht : squeezeSlashes (rest.dropWhile (fun d => d = '/')) with
    | nil => simp [hasDoubleSlash]
    | cons x xs =>
      have hxh : (rest.dropWhile (fun d => d = '/')).head? = some x := by
        rw [← squeezeSlashes_head, ht]
        rfl
      have hx : decide (x = '/') = false :=
        head_dropWhile_false (fun d => decide (d = '/')) rest x hxh
      rw [ht] at ih
      simp only [hasDoubleSlash, Bool.or_eq_false_iff, Bool.and_eq_false_iff]
      exact ⟨Or.inr hx, ih⟩
  | case3 c rest hc ih =>
    rw [show squeezeSlashes (c :: rest) = c :: squeezeSlashes rest by
      simp [squeezeSlashes, hc]]
    cases ht : squeezeSlashes rest with
    | nil => simp [hasDoubleSlash]
    | cons x xs =>
      rw [ht] at ih
      simp only [hasDoubleSlash, Bool.or_eq_false_iff, Bool.and_eq_false_iff]
      exact ⟨Or.inl (by simpa using hc), ih⟩

/-- Leading-slash guard: the guarded list starts with a slash. -/
theorem guardSlash_head (l : List Char) :
    (if l.head? = some '/' then l else '/' :: l).head? = some '/' := by
  by_cases h : l.head? = some '/'
  · rw [if_pos h]; exact h
  · rw [if_neg h]; rfl

/-- Leading-slash guard: prepending a slash to a list that does not start with
one cannot create a double slash. -/
theorem guardSlash_noDouble (l : List Char) (h : hasDoubleSlash l = false) :
    hasDoubleSlash (if l.head? = some '/' then l else '/' :: l) = false := by
  by_cases h1 : l.head? = some '/'
  · rw [if_pos h1]; exact h
  · rw [if_neg h1]
    cases l with
    | nil => simp [hasDoubleSlash]
    | cons x xs =>
      have hx : decide (x = '/') = false := by
        simp only [List.head?_cons] at h1
        simpa using fun hxx => h1 (by rw [hxx])
      simp only [hasDoubleSlash, Bool.or_eq_false_iff, Bool.and_eq_false_iff]
      exact ⟨Or.inr hx, h⟩

/-- Claim C7: the composed decorator route always begins with exactly one
leading slash and contains no run of two or more consecutive slashes, and the
`/users` + `/:id` example composes to `/users/:id`, which route normalization
rewrites to the bracketed form. -/
theorem c7_combined_route_well_formed (ctrlPfx handlerPath : Option (List Char)) :
    (combinePaths ctrlPfx handlerPath).head? = some '/'
    ∧ hasDoubleSlash (combinePaths ctrlPfx handlerPath) = false
    ∧ combinePaths (some "/users".toList) (some "/:id".toList) = "/users/:id".toList
    ∧ normalizeRoute "/users/:id" = "/users/\x7bid\x7d" := by
  refine ⟨?_, ?_, ?_, ?_⟩
  · unfold combinePaths
    exact guardSlash_head _
  · unfold combinePaths
    exact guardSlash_noDouble _ (hasDoubleSlash_squeezeSlashes _)
  · simp [combinePaths, orSlash, orSlashKeepEmpty, ensureLeadingSlash, rstripSlash,
      squeezeSlashes]
  · simp [normalizeRoute, normalizeRouteChars, isIdentStart, isWordChar]

/-- Claim C8: merging a GET fragment and a POST fragment for `/items` into an
empty document in either order yields exactly one `/items` entry holding both
operations, with identical lookups; when two fragments target the same
(path, method) pair the last merged fragment's payload is stored and the entry
keeps a single operation object for that pair. -/
theorem c8_merge_commutative_in_methods {α : Type} (pg pp a b : α) :
    (mergePaths (mergePaths ([] : PathsMap α) [("/items", [("get", pg)])])
        [("/items", [("post", pp)])]
      = [("/items", [("get", pg), ("post", pp)])])
    ∧ (mergePaths (mergePaths ([] : PathsMap α) [("/items", [("post", pp)])])
        [("/items", [("get", pg)])]
      = [("/items", [("post", pp), ("get", pg)])])
    ∧ (∀ p m,
        lookupOp (mergePaths (mergePaths ([] : PathsMap α) [("/items", [("get", pg)])])
          [("/items", [("post", pp)])]) p m
        = lookupOp (mergePaths (mergePaths ([] : PathsMap α) [("/items", [("post", pp)])])
          [("/items", [("get", pg)])]) p m)
    ∧ (mergePaths (mergePaths ([] : PathsMap α) [("/items", [("get", a)])])
        [("/items", [("get", b)])]
      = [("/items", [("get", b)])]) := by
  have hnorm : normalizeRoute "/items" = "/items" := by
    simp [normalizeRoute, normalizeRouteChars, isIdentStart]
  have h1 : mergePaths (mergePaths ([] : PathsMap α) [("/items", [("get", pg)])])
      [("/items", [("post", pp)])]
      = [("/items", [("get", pg), ("post", pp)])] := by
    simp [mergePaths, mergeOnePath, hnorm, dictGet, dictSet, List.find?]
  have h2 : mergePaths (mergePaths ([] : PathsMap α) [("/items", [("post", pp)])])
      [("/items", [("get", pg)])]
      = [("/items", [("post", pp), ("get", pg)])] := by
    simp [mergePaths, mergeOnePath, hnorm, dictGet, dictSet, List.find?]
  have h4 : mergePaths (mergePaths ([] : PathsMap α) [("/items", [("get", a)])])
      [("/items", [("get", b)])]
      = [("/items", [("get", b)])] := by
    simp [mergePaths, mergeOnePath, hnorm, dictGet, dictSet, List.find?]
  refine ⟨h1, h2, ?_, h4⟩
  intro p m
  rw [h1, h2]
  by_cases hp : p = "/items"
  · subst hp
    by_cases hm1 : m = "get"
    · subst hm1; simp [lookupOp, dictGet, List.find?]
    · by_cases hm2 : m = "post"
      · subst hm2; simp [lookupOp, dictGet, List.find?]
      · simp [lookupOp, dictGet, List.find?, Ne.symm hm1, Ne.symm hm2]
  · simp [lookupOp, dictGet, List.find?, Ne.symm hp]

/-- Membership through stable insertion. -/
theorem insertByStart_mem (x y : SymElem) (l : List SymElem) :
    y ∈ insertByStart x l ↔ y = x ∨ y ∈ l := by
  induction l with
  | nil => simp [insertByStart]
  | cons a as ih =>
    by_cases h : x.startLine ≤ a.startLine
    · rw [insertByStart, if_pos h]
      simp
    · rw [insertByStart, if_neg h]
      simp only [List.mem_cons, ih]
      tauto

/-- Stable insertion never yields the empty list. -/
theorem insertByStart_ne_nil (x : SymElem) (l : List SymElem) :
    insertByStart x l ≠ [] := by
  cases l with
  | nil => simp [insertByStart]
  | cons a as =>
    rw [insertByStart]
    by_cases h : x.startLine ≤ a.startLine
    · rw [if_pos h]; simp
    · rw [if_neg h]; simp

/-- Membership through the start-line sort. -/
theorem sortByStart_mem (y : SymElem) (l : List SymElem) :
    y ∈ sortByStart l ↔ y ∈ l := by
  induction l with
  | nil => simp [sortByStart]
  | cons a as ih =>
    rw [sortByStart, insertByStart_mem]
    simp [ih]

/-- The start-line sort of a nonempty list is nonempty. -/
theorem sortByStart_ne_nil (l : List SymElem) (h : l ≠ []) :
    sortByStart l ≠ [] := by
  cases l with
  | nil => exact absurd rfl h
  | cons a as => exact insertByStart_ne_nil a (sortByStart as)

/-- Stable insertion preserves sortedness by start line. -/
theorem insertByStart_pairwise (x : SymElem) (l : List SymElem)
    (h : l.Pairwise (fun a b => a.startLine ≤ b.startLine)) :
    (insertByStart x l).Pairwise (fun a b => a.startLine ≤ b.startLine) := by
  induction l with
  | nil => simp [insertByStart]
  | cons a as ih =>
    rcases List.pairwise_cons.mp h with ⟨ha, has⟩
    by_cases hx : x.startLine ≤ a.startLine
    · rw [insertByStart, if_pos hx]
      refine List.pairwise_cons.mpr ⟨?_, h⟩
      intro z hz
      rcases List.mem_cons.mp hz with rfl | hz2
      · exact hx
      · exact le_trans hx (ha z hz2)
    · rw [insertByStart, if_neg hx]
      refine List.pairwise_cons.mpr ⟨?_, ih has⟩
      intro z hz
      rcases (insertByStart_mem x z as).mp hz with rfl | hz2
      · omega
      · exact ha z hz2

/-- The start-line sort is sorted. -/
theorem sortByStart_pairwise (l : List SymElem) :
    (sortByStart l).Pairwise (fun a b => a.startLine ≤ b.startLine) := by
  induction l with
  | nil => simp [sortByStart]
  | cons a as ih => exact insertByStart_pairwise a (sortByStart as) ih

/-- The last element of a nonempty-or-empty list through a cons. -/
theorem getLast?_cons_match {α : Type} (c : α) (xs : List α) :
    (c :: xs).getLast? = match xs.getLast? with
      | some d => some d
      | none => some c := by
  cases xs with
  | nil => rfl
  | cons y ys =>
    rw [List.getLast?_cons_cons]
    cases h2 : (y :: ys).getLast? with
    | none => simp at h2
    | some d => rfl

/-- The last element of a list is a member. -/
theorem mem_of_getLast?_eq {α : Type} (l : List α) (d : α) (h : l.getLast? = some d) :
    d ∈ l := by
  induction l with
  | nil => simp at h
  | cons a as ih =>
    cases as with
    | nil =>
      simp only [List.getLast?_singleton, Option.some.injEq] at h
      subst h
      simp
    | cons b bs =>
      rw [List.getLast?_cons_cons] at h
      exact List.mem_cons_of_mem a (ih h)

/-- In a list sorted by start line, the last element has the largest start. -/
theorem pairwise_le_getLast (l : List SymElem) (d : SymElem)
    (hp : l.Pairwise (fun a b => a.startLine ≤ b.startLine))
    (hd : l.getLast? = some d) :
    ∀ x ∈ l, x.startLine ≤ d.startLine := by
  induction l with
  | nil => simp at hd
  | cons a as ih =>
    rcases List.pairwise_cons.mp hp with ⟨ha, has⟩
    intro x hx
    cases as with
    | nil =>
      simp only [List.getLast?_singleton, Option.some.injEq] at hd
      subst hd
      simp only [List.mem_singleton] at hx
      subst hx
      exact le_refl _
    | cons b bs =>
      rw [List.getLast?_cons_cons] at hd
      rcases List.mem_cons.mp hx with rfl | hx2
      · exact ha d (mem_of_getLast?_eq _ _ hd)
      · exact ih has hd x hx2

/-- Candidate loop, containing case: whenever some candidate's guard span
contains the call line, the loop stops at a containing candidate. -/
theorem selectLoop_of_contains (callLine : Nat) (l : List SymElem) (acc : Option SymElem)
    (h : ∃ c ∈ l, containsGuard c callLine) :
    ∃ d, selectLoop callLine l acc = some d ∧ containsGuard d callLine ∧ d ∈ l := by
  induction l generalizing acc with
  | nil => simp at h
  | cons c rest ih =>
    by_cases hc : containsGuard c callLine
    · exact ⟨c, by simp [selectLoop, hc], hc, by simp⟩
    · have hrest : ∃ x ∈ rest, containsGuard x callLine := by
        rcases h with ⟨x, hx, hxg⟩
        rcases List.mem_cons.mp hx with rfl | hx2
        · exact absurd hxg hc
        · exact ⟨x, hx2, hxg⟩
      by_cases hl : leGuard c callLine
      · obtain ⟨d, hd1, hd2, hd3⟩ := ih (some c) hrest
        exact ⟨d, by simp [selectLoop, hc, hl, hd1], hd2, by simp [hd3]⟩
      · obtain ⟨d, hd1, hd2, hd3⟩ := ih acc hrest
        exact ⟨d, by simp [selectLoop, hc, hl, hd1], hd2, by simp [hd3]⟩

/-- Candidate loop, non-containing case: the loop returns the last candidate
that starts at or before the call line, else the accumulator. -/
theorem selectLoop_of_no_contains (callLine : Nat) (l : List SymElem) (acc : Option SymElem)
    (h : ∀ c ∈ l, ¬ containsGuard c callLine) :
    selectLoop callLine l acc
      = match (l.filter (fun c => decide (leGuard c callLine))).getLast? with
        | some d => some d
        | none => acc := by
  induction l generalizing acc with
  | nil => simp [selectLoop]
  | cons c rest ih =>
    have hc := h c (List.mem_cons_self c rest)
    have hrest : ∀ x ∈ rest, ¬ containsGuard x callLine :=
      fun x hx => h x (List.mem_cons_of_mem c hx)
    by_cases hl : leGuard c callLine
    · rw [selectLoop.eq_def]
      simp only [if_neg hc, if_pos hl]
      rw [ih (some c) hrest]
      rw [List.filter_cons_of_pos (by simpa using hl)]
      rw [getLast?_cons_match]
      cases hfil : (rest.filter (fun c => decide (leGuard c callLine))).getLast? <;> rfl
    · rw [selectLoop.eq_def]
      simp only [if_neg hc, if_neg hl]
      rw [ih acc hrest]
      rw [List.filter_cons_of_neg (by simpa using hl)]

/-- Claim C5: for every multiset of same-named declarations and in-range call
line, the slicer's definition lookup returns a declaration whose span contains
the call line when one exists; otherwise one with the largest start line not
exceeding the call line; otherwise the first (smallest-start) declaration — it
never selects a declaration starting after the call line unless every
declaration starts after it. -/
theorem c5_definition_selection (functions : List SymElem) (name : String) (callLine : Nat)
    (hpos : ∀ f ∈ functions, 1 ≤ f.startLine ∧ 1 ≤ f.endLine)
    (hne : functions.filter (fun f => f.name = name) ≠ []) :
    ∃ d, selectDefinition functions name callLine = some d
      ∧ d ∈ functions.filter (fun f => f.name = name)
      ∧ ((∃ c ∈ functions.filter (fun f => f.name = name), spanContains c callLine) →
          spanContains d callLine)
      ∧ ((¬ ∃ c ∈ functions.filter (fun f => f.name = name), spanContains c callLine) →
         (∃ c ∈ functions.filter (fun f => f.name = name), c.startLine ≤ callLine) →
          d.startLine ≤ callLine
          ∧ ∀ c ∈ functions.filter (fun f => f.name = name),
              c.startLine ≤ callLine → c.startLine ≤ d.startLine)
      ∧ ((∀ c ∈ functions.filter (fun f => f.name = name), callLine < c.startLine) →
          ∀ c ∈ functions.filter (fun f => f.name = name), d.startLine ≤ c.startLine) := by
  have hposc : ∀ c ∈ functions.filter (fun f => f.name = name),
      1 ≤ c.startLine ∧ 1 ≤ c.endLine :=
    fun c hc => hpos c (List.mem_of_mem_filter hc)
  have hguard_iff : ∀ c ∈ functions.filter (fun f => f.name = name),
      (containsGuard c callLine ↔ spanContains c callLine) := by
    intro c hc
    have := hposc c hc
    unfold containsGuard spanContains
    omega
  have hle_iff : ∀ c ∈ functions.filter (fun f => f.name = name),
      (leGuard c callLine ↔ c.startLine ≤ callLine) := by
    intro c hc
    have := hposc c hc
    unfold leGuard
    omega
  have hmem_sort : ∀ y, y ∈ sortByStart (functions.filter (fun f => f.name = name))
      ↔ y ∈ functions.filter (fun f => f.name = name) :=
    fun y => sortByStart_mem y _
  have hsorted := sortByStart_pairwise (functions.filter (fun f => f.name = name))
  have hempty : (functions.filter (fun f => f.name = name)).isEmpty = false := by
    cases hx : functions.filter (fun f => f.name = name) with
    | nil => exact absurd hx hne
    | cons a as => rfl
  by_cases hcont : ∃ c ∈ functions.filter (fun f => f.name = name), spanContains c callLine
  · -- a containing declaration exists
    have hcontl : ∃ c ∈ sortByStart (functions.filter (fun f => f.name = name)),
        containsGuard c callLine := by
      obtain ⟨c, hc, hcs⟩ := hcont
      exact ⟨c, (hmem_sort c).mpr hc, (hguard_iff c hc).mpr hcs⟩
    obtain ⟨d, hd1, hd2, hd3⟩ := selectLoop_of_contains callLine _ none hcontl
    have hdc : d ∈ functions.filter (fun f => f.name = name) := (hmem_sort d).mp hd3
    have hds : spanContains d callLine := (hguard_iff d hdc).mp hd2
    refine ⟨d, ?_, hdc, fun _ => hds, fun hno _ => absurd hcont hno, fun hall => ?_⟩
    · unfold selectDefinition
      rw [if_neg (by simp [hempty])]
      simp only [hd1]
    · exfalso
      have := hall d hdc
      unfold spanContains at hds
      omega
  · -- no containing declaration
    have hnol : ∀ c ∈ sortByStart (functions.filter (fun f => f.name = name)),
        ¬ containsGuard c callLine := by
      intro c hc hg
      exact hcont ⟨c, (hmem_sort c).mp hc, (hguard_iff c ((hmem_sort c).mp hc)).mp hg⟩
    have hloop := selectLoop_of_no_contains callLine
      (sortByStart (functions.filter (fun f => f.name = name))) none hnol
    cases hfil : ((sortByStart (functions.filter (fun f => f.name = name))).filter
        (fun c => decide (leGuard c callLine))).getLast? with
    | some d =>
      rw [hfil] at hloop
      have hdf : d ∈ (sortByStart (functions.filter (fun f => f.name = name))).filter
          (fun c => decide (leGuard c callLine)) := mem_of_getLast?_eq _ _ hfil
      have hdl : d ∈ sortByStart (functions.filter (fun f => f.name = name)) :=
        List.mem_of_mem_filter hdf
      have hdc : d ∈ functions.filter (fun f => f.name = name) := (hmem_sort d).mp hdl
      have hdle : d.startLine ≤ callLine := by
        have := List.of_mem_filter hdf
        have hlg : leGuard d callLine := by simpa using this
        exact (hle_iff d hdc).mp hlg
      refine ⟨d, ?_, hdc, fun hcc => absurd hcc hcont, fun _ _ => ⟨hdle, ?_⟩, fun hall => ?_⟩
      · unfold selectDefinition
        rw [if_neg (by simp [hempty])]
        simp only [hloop]
      · intro c hc hcle
        have hcl : c ∈ sortByStart (functions.filter (fun f => f.name = name)) :=
          (hmem_sort c).mpr hc
        have hcf : c ∈ (sortByStart (functions.filter (fun f => f.name = name))).filter
            (fun c => decide (leGuard c callLine)) := by
          refine List.mem_filter.mpr ⟨hcl, ?_⟩
          simpa using (hle_iff c hc).mpr hcle
        have hpf : ((sortByStart (functions.filter (fun f => f.name = name))).filter
            (fun c => decide (leGuard c callLine))).Pairwise
            (fun a b => a.startLine ≤ b.startLine) :=
          List.Pairwise.sublist (List.filter_sublist _) hsorted
        exact pairwise_le_getLast _ d hpf hfil c hcf
      · exfalso
        have := hall d hdc
        omega
    | none =>
      rw [hfil] at hloop
      cases hsl : sortByStart (functions.filter (fun f => f.name = name)) with
      | nil => exact absurd hsl (sortByStart_ne_nil _ hne)
      | cons d rest =>
        have hdc : d ∈ functions.filter (fun f => f.name = name) := by
          rw [← hmem_sort d, hsl]
          simp
        refine ⟨d, ?_, hdc, fun hcc => absurd hcc hcont, fun _ hex => ?_, fun _ => ?_⟩
        · unfold selectDefinition
          rw [if_neg (by simp [hempty])]
          simp only [hloop]
          rw [hsl]
          rfl
        · exfalso
          obtain ⟨c, hc, hcle⟩ := hex
          have hcf : c ∈ (sortByStart (functions.filter (fun f => f.name = name))).filter
              (fun c => decide (leGuard c callLine)) := by
            refine List.mem_filter.mpr ⟨(hmem_sort c).mpr hc, ?_⟩
            simpa using (hle_iff c hc).mpr hcle
          rw [List.getLast?_eq_none_iff] at hfil
          rw [hfil] at hcf
          simp at hcf
        · intro c hc
          have hcl : c ∈ sortByStart (functions.filter (fun f => f.name = name)) :=
            (hmem_sort c).mpr hc
          rw [hsl] at hcl
          rcases List.mem_cons.mp hcl with rfl | hc2
          · exact le_refl _
          · have hp := hsorted
            rw [hsl] at hp
            exact (List.pairwise_cons.mp hp).1 c hc2

/-- Witness for C5: with `validate` declared twice, spans 1-3 and 10-12, a
call at line 11 selects the containing declaration. -/
theorem c5_definition_selection_witness :
    ∃ d, selectDefinition [⟨"validate", 1, 3⟩, ⟨"validate", 10, 12⟩] "validate" 11 = some d
      ∧ d ∈ ([⟨"validate", 1, 3⟩, ⟨"validate", 10, 12⟩] : List SymElem).filter
          (fun f => f.name = "validate")
      ∧ ((∃ c ∈ ([⟨"validate", 1, 3⟩, ⟨"validate", 10, 12⟩] : List SymElem).filter
            (fun f => f.name = "validate"), spanContains c 11) →
          spanContains d 11)
      ∧ ((¬ ∃ c ∈ ([⟨"validate", 1, 3⟩, ⟨"validate", 10, 12⟩] : List SymElem).filter
            (fun f => f.name = "validate"), spanContains c 11) →
         (∃ c ∈ ([⟨"validate", 1, 3⟩, ⟨"validate", 10, 12⟩] : List SymElem).filter
            (fun f => f.name = "validate"), c.startLine ≤ 11) →
          d.startLine ≤ 11
          ∧ ∀ c ∈ ([⟨"validate", 1, 3⟩, ⟨"validate", 10, 12⟩] : List SymElem).filter
              (fun f => f.name = "validate"),
              c.startLine ≤ 11 → c.startLine ≤ d.startLine)
      ∧ ((∀ c ∈ ([⟨"validate", 1, 3⟩, ⟨"validate", 10, 12⟩] : List SymElem).filter
            (fun f => f.name = "validate"), 11 < c.startLine) →
          ∀ c ∈ ([⟨"validate", 1, 3⟩, ⟨"validate", 10, 12⟩] : List SymElem).filter
            (fun f => f.name = "validate"), d.startLine ≤ c.startLine) :=
  c5_definition_selection [⟨"validate", 1, 3⟩, ⟨"validate", 10, 12⟩] "validate" 11
    (by decide) (by decide)

/-- Unfolding of `_normalize_route` at a parameter occurrence. -/
theorem normalizeRouteChars_cons_match (r2 : Char) (rs2 : List Char)
    (h2 : isIdentStart r2 = true) :
    normalizeRouteChars (':' :: r2 :: rs2)
      = '\x7b' :: r2 :: rs2.takeWhile isWordChar
        ++ '\x7d' :: normalizeRouteChars (rs2.dropWhile isWordChar) := by
  simp [normalizeRouteChars, h2]

/-- Unfolding of `_normalize_route` at a non-matching position. -/
theorem normalizeRouteChars_cons_nomatch (c : Char) (rest : List Char)
    (h : ¬(c = ':' ∧ rest.head?.elim false isIdentStart = true)) :
    normalizeRouteChars (c :: rest) = c :: normalizeRouteChars rest := by
  conv_lhs => rw [normalizeRouteChars.eq_def]
  simp only []
  rw [if_neg h]

/-- A parameter-start character is not a colon. -/
theorem ne_colon_of_identStart (c : Char) (h : isIdentStart c = true) : c ≠ ':' := by
  intro hc
  subst hc
  exact absurd h (by decide)

/-- A parameter-continuation character is not a colon. -/
theorem ne_colon_of_wordChar (c : Char) (h : isWordChar c = true) : c ≠ ':' := by
  intro hc
  subst hc
  exact absurd h (by decide)

/-- A colon-free prefix does not affect the colon-parameter detector. -/
theorem hasColonParamChars_append (xs ys : List Char)
    (hx : ∀ x ∈ xs, x ≠ ':') :
    hasColonParamChars (xs ++ ys) = hasColonParamChars ys := by
  induction xs with
  | nil => rfl
  | cons x xs ih =>
    have hx1 : x ≠ ':' := hx x (List.mem_cons_self x xs)
    cases hxy : xs ++ ys with
    | nil =>
      obtain ⟨hxs, hys⟩ := List.append_eq_nil.mp hxy
      subst hxs
      subst hys
      simp [hasColonParamChars]
    | cons d rest =>
      rw [List.cons_append, hxy]
      simp only [hasColonParamChars]
      rw [← hxy, ih (fun z hz => hx z (List.mem_cons_of_mem x hz))]
      simp [hx1]

/-- Head of a normalized route never begins a parameter name, provided the
original head does not. -/
theorem normalizeRouteChars_head_not_ident (r : Char) (rs : List Char)
    (hr : isIdentStart r = false) (d : Char)
    (hd : (normalizeRouteChars (r :: rs)).head? = some d) :
    isIdentStart d = false := by
  by_cases hcond : r = ':' ∧ rs.head?.elim false isIdentStart = true
  · obtain ⟨hc1, hc2⟩ := hcond
    subst hc1
    cases rs with
    | nil => simp at hc2
    | cons r2 rs2 =>
      have h2 : isIdentStart r2 = true := by simpa using hc2
      rw [normalizeRouteChars_cons_match r2 rs2 h2] at hd
      rw [List.cons_append] at hd
      simp only [List.head?_cons, Option.some.injEq] at hd
      subst hd
      decide
  · rw [normalizeRouteChars_cons_nomatch r rs hcond] at hd
    simp only [List.head?_cons, Option.some.injEq] at hd
    subst hd
    exact hr

/-- The normalization output contains no colon-prefixed parameter. -/
theorem hasColonParam_normalizeRouteChars (cs : List Char) :
    hasColonParamChars (normalizeRouteChars cs) = false := by
  induction cs using normalizeRouteChars.induct with
  | case1 => simp [normalizeRouteChars, hasColonParamChars]
  | case2 c d rest2 h ih =>
    obtain ⟨hc, hd⟩ := h
    subst hc
    have hd2 : isIdentStart d = true := by simpa using hd
    rw [normalizeRouteChars_cons_match d rest2 hd2]
    have hsplit : ('\x7b' :: d :: rest2.takeWhile isWordChar)
        ++ '\x7d' :: normalizeRouteChars (rest2.dropWhile isWordChar)
        = (('\x7b' :: d :: rest2.takeWhile isWordChar) ++ ['\x7d'])
          ++ normalizeRouteChars (rest2.dropWhile isWordChar) := by
      simp
    rw [hsplit]
    rw [hasColonParamChars_append _ _ ?hxs]
    · exact ih
    case hxs =>
      intro x hxm
      simp only [List.mem_append, List.mem_cons, List.mem_singleton,
        List.not_mem_nil, or_false] at hxm
      rcases hxm with (rfl | hxd | hxm) | rfl
      · decide
      · rw [hxd]
        exact ne_colon_of_identStart d hd2
      · exact ne_colon_of_wordChar x (List.mem_takeWhile_imp hxm)
      · decide
  | case3 c h => simp at h
  | case4 c rest h ih =>
    rw [normalizeRouteChars_cons_nomatch c rest h]
    cases hout : normalizeRouteChars rest with
    | nil => simp [hasColonParamChars]
    | cons d tail =>
      simp only [hasColonParamChars]
      rw [hout] at ih
      rw [ih]
      simp only [Bool.or_false, Bool.and_eq_false_iff]
      by_cases hc : c = ':'
      · subst hc
        right
        have hrh : rest.head?.elim false isIdentStart = false := by
          by_cases hx : rest.head?.elim false isIdentStart = true
          · exact absurd ⟨rfl, hx⟩ h
          · simpa using hx
        cases rest with
        | nil => simp [normalizeRouteChars] at hout
        | cons r rs =>
          have hr : isIdentStart r = false := by simpa using hrh
          exact normalizeRouteChars_head_not_ident r rs hr d (by rw [hout]; rfl)
      · left
        simpa using hc

/-- A route fixed by normalization contains no colon-prefixed parameter. -/
theorem hasColonParamChars_of_fixed (cs : List Char)
    (h : normalizeRouteChars cs = cs) : hasColonParamChars cs = false := by
  induction cs using normalizeRouteChars.induct with
  | case1 => rfl
  | case2 c d rest2 hcd ih =>
    obtain ⟨hc, hd⟩ := hcd
    subst hc
    have hd2 : isIdentStart d = true := by simpa using hd
    rw [normalizeRouteChars_cons_match d rest2 hd2] at h
    rw [List.cons_append] at h
    simp at h
  | case3 c hcd => simp at hcd
  | case4 c rest hni ih =>
    rw [normalizeRouteChars_cons_nomatch c rest hni] at h
    have htail : normalizeRouteChars rest = rest := (List.cons.injEq _ _ _ _ ▸ h).2
    have ihr := ih htail
    cases hr : rest with
    | nil => simp [hasColonParamChars]
    | cons d tail =>
      subst hr
      simp only [hasColonParamChars]
      rw [ihr]
      simp only [Bool.or_false, Bool.and_eq_false_iff]
      by_cases hc : c = ':'
      · subst hc
        right
        have : ¬ isIdentStart d = true := fun hx => hni ⟨rfl, by simpa using hx⟩
        simpa using this
      · left
        simpa using hc

/-- A route changed by normalization acquires an opening brace. -/
theorem brace_mem_of_changed (cs : List Char) (h : normalizeRouteChars cs ≠ cs) :
    '\x7b' ∈ normalizeRouteChars cs := by
  induction cs using normalizeRouteChars.induct with
  | case1 => exact absurd (by simp [normalizeRouteChars]) h
  | case2 c d rest2 hcd ih =>
    obtain ⟨hc, hd⟩ := hcd
    subst hc
    have hd2 : isIdentStart d = true := by simpa using hd
    rw [normalizeRouteChars_cons_match d rest2 hd2]
    simp
  | case3 c hcd => simp at hcd
  | case4 c rest hni ih =>
    rw [normalizeRouteChars_cons_nomatch c rest hni] at h ⊢
    have hch : normalizeRouteChars rest ≠ rest := fun he => h (by rw [he])
    exact List.mem_cons_of_mem c (ih hch)

/-- String-level: normalized routes carry no colon parameter. -/
theorem hasColonParam_normalizeRoute (s : String) :
    hasColonParam (normalizeRoute s) = false :=
  hasColonParam_normalizeRouteChars s.toList

/-- String-level: a route fixed by normalization has no colon parameter. -/
theorem hasColonParam_of_normalizeRoute_fixed (s : String)
    (h : normalizeRoute s = s) : hasColonParam s = false := by
  apply hasColonParamChars_of_fixed
  exact congrArg String.toList h

/-- String-level: a route changed by normalization is not a bare wildcard. -/
theorem normalizeRoute_changed_ne_wildcard (s : String)
    (h : normalizeRoute s ≠ s) :
    normalizeRoute s ≠ "*" ∧ normalizeRoute s ≠ "/*" := by
  have hlist : normalizeRouteChars s.toList ≠ s.toList := by
    intro he
    exact h (by apply String.ext; exact he)
  have hbrace : '\x7b' ∈ normalizeRouteChars s.toList := brace_mem_of_changed _ hlist
  constructor
  · intro hx
    have : '\x7b' ∈ ("*" : String).toList := by
      rw [← hx]
      exact hbrace
    simp at this
  · intro hx
    have : '\x7b' ∈ ("/*" : String).toList := by
      rw [← hx]
      exact hbrace
    simp at this

/-- Keys after a removal: still a key, and never the removed one. -/
theorem dictKeys_remove {α : Type} (d : List (String × α)) (x k : String)
    (h : k ∈ dictKeys (dictRemove d x)) : k ∈ dictKeys d ∧ k ≠ x := by
  unfold dictKeys dictRemove at *
  obtain ⟨e, he, hk⟩ := List.mem_map.mp h
  have hef := List.mem_filter.mp he
  subst hk
  refine ⟨List.mem_map.mpr ⟨e, hef.1, rfl⟩, ?_⟩
  simpa using hef.2

/-- Keys after an assignment: an old key or the assigned key. -/
theorem dictKeys_set {α : Type} (d : List (String × α)) (k : String) (v : α)
    (j : String) (h : j ∈ dictKeys (dictSet d k v)) : j ∈ dictKeys d ∨ j = k := by
  induction d with
  | nil =>
    simp [dictSet, dictKeys] at h
    exact Or.inr h
  | cons e rest ih =>
    rw [dictSet] at h
    by_cases he : e.1 = k
    · rw [if_pos he] at h
      simp only [dictKeys, List.map_cons, List.mem_cons] at h ⊢
      rcases h with rfl | h
      · exact Or.inr rfl
      · exact Or.inl (Or.inr h)
    · rw [if_neg he] at h
      simp only [dictKeys, List.map_cons, List.mem_cons] at h ⊢
      rcases h with rfl | h
      · exact Or.inl (Or.inl rfl)
      · rcases ih h with h2 | h2
        · exact Or.inl (Or.inr h2)
        · exact Or.inr h2

/-- A key present in the dict has a value. -/
theorem dictGet_isSome_of_mem {α : Type} (d : List (String × α)) (k : String)
    (h : k ∈ dictKeys d) : ∃ v, dictGet d k = some v := by
  induction d with
  | nil => simp [dictKeys] at h
  | cons e rest ih =>
    simp only [dictKeys, List.map_cons, List.mem_cons] at h
    by_cases he : e.1 = k
    · exact ⟨e.2, by simp [dictGet, List.find?, he]⟩
    · rcases h with rfl | h
      · exact absurd rfl he
      · obtain ⟨v, hv⟩ := ih h
        refine ⟨v, ?_⟩
        unfold dictGet at hv ⊢
        rw [List.find?_cons_of_neg _ (by simpa using he)]
        exact hv

/-- Assigning to a present key leaves the key list unchanged. -/
theorem dictKeys_set_present {α : Type} (d : List (String × α)) (k : String)
    (v w : α) (h : dictGet d k = some v) :
    dictKeys (dictSet d k w) = dictKeys d := by
  induction d with
  | nil => simp [dictGet, List.find?] at h
  | cons e rest ih =>
    rw [dictSet]
    by_cases he : e.1 = k
    · rw [if_pos he]
      simp [dictKeys, he]
    · rw [if_neg he]
      simp only [dictKeys, List.map_cons]
      unfold dictGet at h
      rw [List.find?_cons_of_neg _ (by simpa using he)] at h
      exact congrArg (List.cons e.1) (ih h)

/-- The operation-payload repairs do not change the path key list. -/
theorem applyOpFix_keys {α : Type} (p : PathsMap α) (pathKey method : String)
    (fix : α → α) : dictKeys (applyOpFix p pathKey method fix) = dictKeys p := by
  unfold applyOpFix
  cases hp : dictGet p pathKey with
  | none => rfl
  | some inner =>
    simp only []
    cases hm : dictGet inner method with
    | none => rfl
    | some payload => exact dictKeys_set_present p pathKey inner _ hp

/-- Invariant of the re-keying pass: every key of the evolving mapping is
either still pending in the snapshot or already a good key (not a wildcard,
no colon parameter). -/
theorem rekeyFold_good {α : Type} (todo : List String) (d : PathsMap α)
    (hinv : ∀ j ∈ dictKeys d,
      j ∈ todo ∨ (j ≠ "*" ∧ j ≠ "/*" ∧ hasColonParam j = false))
    (htodo : ∀ o ∈ todo, o ≠ "*" ∧ o ≠ "/*") :
    ∀ k ∈ dictKeys (todo.foldl rekeyStep d),
      k ≠ "*" ∧ k ≠ "/*" ∧ hasColonParam k = false := by
  induction todo generalizing d with
  | nil =>
    intro k hk
    rcases hinv k hk with h | h
    · simp at h
    · exact h
  | cons o rest ih =>
    intro k hk
    rw [List.foldl_cons] at hk
    refine ih (rekeyStep d o) ?_ (fun x hx => htodo x (List.mem_cons_of_mem o hx)) k hk
    intro j hj
    unfold rekeyStep at hj
    by_cases hno : normalizeRoute o = o
    · rw [if_pos hno] at hj
      rcases hinv j hj with hmem | hgood
      · rcases List.mem_cons.mp hmem with rfl | hmem2
        · exact Or.inr ⟨(htodo j (List.mem_cons_self j rest)).1,
            (htodo j (List.mem_cons_self j rest)).2,
            hasColonParam_of_normalizeRoute_fixed j hno⟩
        · exact Or.inl hmem2
      · exact Or.inr hgood
    · rw [if_neg hno] at hj
      have hngood : normalizeRoute o ≠ "*" ∧ normalizeRoute o ≠ "/*"
          ∧ hasColonParam (normalizeRoute o) = false := by
        obtain ⟨hw1, hw2⟩ := normalizeRoute_changed_ne_wildcard o hno
        exact ⟨hw1, hw2, hasColonParam_normalizeRoute o⟩
      have hremove : ∀ j2, j2 ∈ dictKeys (dictRemove d o) →
          j2 ∈ rest ∨ (j2 ≠ "*" ∧ j2 ≠ "/*" ∧ hasColonParam j2 = false) := by
        intro j2 hj2
        obtain ⟨hjd, hjo⟩ := dictKeys_remove d o j2 hj2
        rcases hinv j2 hjd with hmem | hgood
        · rcases List.mem_cons.mp hmem with rfl | hmem2
          · exact absurd rfl hjo
          · exact Or.inl hmem2
        · exact Or.inr hgood
      cases hget : dictGet d o with
      | none =>
        rw [hget] at hj
        simp only [] at hj
        rcases hinv j hj with hmem | hgood
        · rcases List.mem_cons.mp hmem with rfl | hmem2
          · exfalso
            obtain ⟨v, hv⟩ := dictGet_isSome_of_mem d j hj
            rw [hget] at hv
            exact Option.noConfusion hv
          · exact Or.inl hmem2
        · exact Or.inr hgood
      | some ex =>
        rw [hget] at hj
        simp only [] at hj
        cases hget2 : dictGet (dictRemove d o) (normalizeRoute o) with
        | none =>
          rw [hget2] at hj
          simp only [] at hj
          have hsplit : j ∈ dictKeys (dictRemove d o) ∨ j = normalizeRoute o := by
            unfold dictKeys at hj
            simp only [List.map_append, List.mem_append, List.map_cons,
              List.map_nil, List.mem_singleton] at hj
            exact hj
          rcases hsplit with hj2 | rfl
          · exact hremove j hj2
          · exact Or.inr hngood
        | some present =>
          rw [hget2] at hj
          simp only [] at hj
          rcases dictKeys_set (dictRemove d o) (normalizeRoute o) _ j hj with hj2 | rfl
          · exact hremove j hj2
          · exact Or.inr hngood

/-- Claim C9: after the post-processing pass, the paths mapping has no bare
wildcard key and no key containing a colon-prefixed parameter segment. -/
theorem c9_post_process_path_keys {α : Type} (paths : PathsMap α)
    (fixPost fixGet fixDelete : α → α) (k : String)
    (hk : k ∈ dictKeys (postProcessPaths paths fixPost fixGet fixDelete)) :
    k ≠ "*" ∧ k ≠ "/*" ∧ hasColonParam k = false := by
  simp only [postProcessPaths, applyOpFix_keys] at hk
  refine rekeyFold_good (dictKeys (dictRemove (dictRemove paths "/*") "*"))
    (dictRemove (dictRemove paths "/*") "*") (fun j hj => Or.inl hj)
    (fun o ho => ?_) k hk
  obtain ⟨ho1, ho2⟩ := dictKeys_remove _ "*" o ho
  obtain ⟨ho3, ho4⟩ := dictKeys_remove _ "/*" o ho1
  exact ⟨ho2, ho4⟩

/-- Witness for C9: a document whose only path is `/:a` post-processes to the
bracketed key, which is neither a wildcard nor colon-style. -/
theorem c9_post_process_path_keys_witness :
    ("/\x7ba\x7d" : String) ≠ "*" ∧ ("/\x7ba\x7d" : String) ≠ "/*"
    ∧ hasColonParam "/\x7ba\x7d" = false :=
  c9_post_process_path_keys [("/:a", [("get", (0 : Nat))])] id id id "/\x7ba\x7d"
    (by simp [postProcessPaths, rekeyStep, dictRemove, dictKeys, dictGet, dictSet,
      dictUpdate, applyOpFix, normalizeRoute, normalizeRouteChars, isIdentStart,
      isWordChar, List.find?, List.filter])
